import Mathlib

/-!
Verification of the MarketEngine ingestion / resolution / persistence pipeline.

The Python source is embedded shallowly: pure functions become Lean functions,
stateful code becomes explicit state passing, fallible code returns `Option` or
an explicit success flag.  External collaborators (the LZMA library, the
`fuzzywuzzy` string-similarity ratio, the network, the random UUID generator,
the MD5 digest) are parameters of the embedding: the theorems quantify over
them or constrain them by hypotheses stating exactly the interface the Python
code relies on.
-/
namespace MarketEngine

/-! ### Python string primitives

The embedding re-implements the handful of `str` operations the source uses
(`lower`, `split()` with no argument, joining with `' '`, lexicographic comparison)
over `String.data`, so that every definition evaluates inside the kernel. -/
/-- Model of Python `str.lower()` (ASCII-sufficient for this code base). -/
def pyLower (s : String) : String := ⟨s.data.map Char.toLower⟩

/-- Split a character list at whitespace, keeping empty chunks. -/
def splitWsAux : List Char → List Char → List (List Char)
  | [], cur => [cur.reverse]
  | c :: rest, cur =>
    if c.isWhitespace then cur.reverse :: splitWsAux rest []
    else splitWsAux rest (c :: cur)

/-- Model of Python `str.split()` with no argument: split on whitespace runs
and drop empty chunks. -/
def pyWords (s : String) : List String :=
  ((splitWsAux s.data []).filter (fun l => l ≠ [])).map (fun l => ⟨l⟩)

/-- Model of Python joining a list of strings with separator `sep`. -/
def pyJoin (sep : String) : List String → String
  | [] => ""
  | [x] => x
  | x :: xs => x ++ sep ++ pyJoin sep xs

/-- Lexicographic comparison of character lists by code point, the order
Python uses when comparing `str` values inside sort keys. -/
def charListLe : List Char → List Char → Bool
  | [], _ => true
  | _ :: _, [] => false
  | a :: as, b :: bs =>
    if a = b then charListLe as bs else decide (a.toNat < b.toNat)

/-! ### Stream repair decoder (`market_engine/modules/API/ManifestAPI.py`)

`lzma.LZMADecompressor` is external, so it is a parameter: one call to
`decomp.decompress(data)` either raises `LZMAError` or yields the decompressed
frame, the unused trailing bytes, and the end-of-stream flag.  A byte is a
`Nat`. -/
/-- Outcome of one `LZMADecompressor.decompress(data)` call: an `LZMAError`,
or the decoded output together with `unused_data` and the `eof` flag. -/
inductive DecompResult where
  | error : DecompResult
  | ok : List Nat → List Nat → Bool → DecompResult
deriving DecidableEq

/-- Abstract single-stream decompressor (the external `lzma` library). -/
structure Codec where
  decompress : List Nat → DecompResult

/-- Loop body of `decompress_lzma`: repeatedly decompress, collecting frames
in `results`.  On an error with at least one collected frame, return the
concatenation; on an error with none, re-raise (`none`).  The Python loop
always terminates because real `unused_data` is a strict suffix of the input;
the fuel `(length + 1)` supplied by `decompress_lzma` is enough for any codec
with that property, and running out of fuel is mapped to `none`. -/
def decompLoop (codec : Codec) : Nat → List Nat → List (List Nat) → Option (List Nat)
  | 0, _, _ => none
  | fuel + 1, data, results =>
    match codec.decompress data with
    | .error => if results = [] then none else some results.flatten
    | .ok res unused eof =>
      if unused = [] then some ((results ++ [res]).flatten)
      else if eof = false then none
      else decompLoop codec fuel unused (results ++ [res])

/-- Model of `decompress_lzma(data)`: `none` models a raised `LZMAError`. -/
def decompress_lzma (codec : Codec) (data : List Nat) : Option (List Nat) :=
  decompLoop codec (data.length + 1) data []

/-- Trimming loop of `fix`: try `decompress_lzma(byt[0:length])`, shrinking
`length` by one on failure.  At `length = 0` the Python loop exits whenever
decompressing the empty buffer succeeds (which real `lzma` always does: it
returns `b""`); the case where even the empty buffer raises is mapped to
`none` (in Python it would slide into negative slice bounds and never
terminate). -/
def fixLoop (codec : Codec) (byt : List Nat) : Nat → Option (List Nat)
  | 0 => decompress_lzma codec []
  | n + 1 =>
    match decompress_lzma codec (byt.take (n + 1)) with
    | some r => some r
    | none => fixLoop codec byt n

/-- Model of `fix(cache, session)` after the manifest bytes have been fetched:
the result is the decompressed byte content (the final `.decode("utf-8")` is
outside the byte-level embedding). -/
def fix (codec : Codec) (byt : List Nat) : Option (List Nat) :=
  fixLoop codec byt byt.length

/-- A self-delimiting compressed frame: decompressing it followed by any
suffix yields its content, hands the suffix back as `unused_data`, and sets
`eof` — the behaviour of a complete LZMA/XZ stream under `FORMAT_AUTO`. -/
def IsFrame (codec : Codec) (f c : List Nat) : Prop :=
  f ≠ [] ∧ ∀ g : List Nat, codec.decompress (f ++ g) = .ok c g true

/-- A valid compressed buffer: a non-empty concatenation of frames, with `c`
the concatenation of their contents. -/
def ValidStream (codec : Codec) (s c : List Nat) : Prop :=
  ∃ fs : List (List Nat × List Nat),
    fs ≠ [] ∧ (∀ p ∈ fs, IsFrame codec p.1 p.2) ∧
    s = (fs.map Prod.fst).flatten ∧ c = (fs.map Prod.snd).flatten

/-- Concrete executable decompressor used for witnesses: a frame is
`2 :: n :: (n content bytes)`; the empty input decodes to nothing without
reaching `eof`; anything else is an error. -/
def toyDecomp : List Nat → DecompResult
  | 2 :: n :: rest =>
    if n ≤ rest.length then .ok (rest.take n) (rest.drop n) true else .error
  | [] => .ok [] [] false
  | _ => .error

/-- The witness codec wrapping `toyDecomp`. -/
def toyCodec : Codec := ⟨toyDecomp⟩

/-! ### Python dicts as association lists

Python dict semantics used by the pipeline: lookup by key, `key in d`, and
assignment that overwrites in place or appends a new key at the end. -/
/-- Python value stored in a record field. -/
inductive PyVal where
  | str (s : String)
  | int (n : Int)
deriving DecidableEq

/-- Model of Python `d.get(k)` / `d[k]` on a dict in insertion order. -/
def alookup {α : Type} : List (String × α) → String → Option α
  | [], _ => none
  | p :: rest, k => if p.1 = k then some p.2 else alookup rest k

/-- Model of Python `d[k] = v`: overwrite in place, or append a new key. -/
def aset {α : Type} : List (String × α) → String → α → List (String × α)
  | [], k, v => [(k, v)]
  | p :: rest, k, v => if p.1 = k then (k, v) :: rest else p :: aset rest k v

/-- A raw statistic record: a Python dict in insertion order. -/
abbrev Rec := List (String × PyVal)

/-! ### Persistence loader (`src/main.py`)

`insert_item_statistics` plus `managed_transaction`: the relational
connection is a state (committed rows, pending rows of the open transaction,
commit/rollback counters, and the transcript of `executemany` calls), and the
external database's behaviour on a batch is an oracle `fails`. -/
/-- A row as bound into the parameterized insert: one `Option PyVal` per
column, `none` standing for SQL `NULL` (Python `data.get(key, None)`). -/
abbrev Row := List (Option PyVal)

/-- Union of all keys across the records (`set().union(*(data.keys() ...))`),
as a duplicate-free list.  Python iterates the set in an arbitrary but fixed
order; the embedding fixes one order, which is all the code relies on. -/
def allColumns (records : List Rec) : List String :=
  (records.flatMap (fun r => r.map Prod.fst)).dedup

/-- The `order_type` defaulting loop of `insert_item_statistics` (and the
identical inline defaulting in `process_price_history`): a record lacking the
key gains `order_type = 'Closed'` — capital C in both of these sites. -/
def defaultClosedCap (r : Rec) : Rec :=
  if (alookup r "order_type").isSome then r else aset r "order_type" (.str "Closed")

/-- Build the bound value tuples of `insert_item_statistics`: the column set
is computed from the records before the `order_type` defaulting mutates
them. -/
def buildValues (records : List Rec) : List Row :=
  let cols := allColumns records
  (records.map defaultClosedCap).map (fun r => cols.map (fun k => alookup r k))

/-- Batch size used by `insert_item_statistics` (`batch_size = 10_000`). -/
def batchSize : Nat := 10000

/-- Chunking `values[i:i + batch_size]`, fuelled by the list length so the
definition evaluates in the kernel (for chunk size `0 < n` the fuel is always
sufficient). -/
def chunksAux {α : Type} (n : Nat) : Nat → List α → List (List α)
  | _, [] => []
  | 0, _ :: _ => []
  | fuel + 1, x :: xs => (x :: xs).take n :: chunksAux n fuel ((x :: xs).drop n)

/-- The successive batches `values[i:i + n]` for `i = 0, n, 2n, ...`. -/
def chunksOf {α : Type} (n : Nat) (l : List α) : List (List α) :=
  chunksAux n l.length l

/-- Relational connection state. -/
structure Conn where
  committed : List Row
  pending : List Row
  commits : Nat
  rollbacks : Nat
  calls : List (List Row)
deriving DecidableEq

/-- `connection.begin()`: open a fresh transaction. -/
def Conn.begin (c : Conn) : Conn := { c with pending := [] }

/-- `connection.commit()`: make the pending rows durable. -/
def Conn.commit (c : Conn) : Conn :=
  { c with committed := c.committed ++ c.pending, pending := [], commits := c.commits + 1 }

/-- `connection.rollback()`: discard the pending rows. -/
def Conn.rollback (c : Conn) : Conn :=
  { c with pending := [], rollbacks := c.rollbacks + 1 }

/-- One `cursor.executemany(insert_query, batch_values)` call: the call is
recorded, and the external database either raises (oracle `fails`) or adds
the batch to the open transaction. -/
def executemany (fails : List Row → Bool) (batch : List Row) (c : Conn) : Conn × Bool :=
  let c' := { c with calls := c.calls ++ [batch] }
  if fails batch then (c', false)
  else ({ c' with pending := c'.pending ++ batch }, true)

/-- The batch loop wrapped in `managed_transaction`: on any batch error the
transaction is rolled back and the exception re-raised (`false`); otherwise a
single commit follows the last batch. -/
def runBatches (fails : List Row → Bool) : List (List Row) → Conn → Conn × Bool
  | [], c => (c.commit, true)
  | b :: bs, c =>
    let r := executemany fails b c
    if r.2 then runBatches fails bs r.1 else (r.1.rollback, false)

/-- Model of `insert_item_statistics(data_list, connection)`. -/
def insert_item_statistics (fails : List Row → Bool) (records : List Rec) (c : Conn) :
    Conn × Bool :=
  runBatches fails (chunksOf batchSize (buildValues records)) c.begin

/-! ### Identifier assignment and name fixing (`market_engine/common.py`) -/
/-- Model of `get_item_id(item_name, item_ids)`: catalog hit, else the MD5
hex digest of the name — `md5hex` is the external
`hashlib.md5(name.encode()).hexdigest()`, a fixed function of the name. -/
def get_item_id (md5hex : String → String) (item_name : String)
    (item_ids : List (String × String)) : String :=
  match alookup item_ids item_name with
  | some v => v
  | none => md5hex item_name

/-- One iteration of the inner loop of `fix_names_and_add_ids`: default a
missing `order_type` to `'closed'` (lowercase, this site) and stamp the item
id for the current (possibly already translated) name. -/
def fixDayCommon (md5hex : String → String) (item_ids : List (String × String))
    (nm : String) (day : Rec) : Rec :=
  let day' := if (alookup day "order_type").isSome then day
              else aset day "order_type" (.str "closed")
  aset day' "item_id" (.str (get_item_id md5hex nm item_ids))

/-- The inner loop of `fix_names_and_add_ids` over one item's day list.  The
Python loop variable `item_name` is re-assigned by the translation lookup
inside the inner loop, so the translated name carries over to later days;
the recursion threads `nm` accordingly. -/
def fixDays (md5hex : String → String) (translation item_ids : List (String × String)) :
    String → List Rec → List Rec
  | _, [] => []
  | nm, day :: rest =>
    let nm' := match alookup translation nm with
               | some t => t
               | none => nm
    fixDayCommon md5hex item_ids nm' day :: fixDays md5hex translation item_ids nm' rest

/-- Model of `fix_names_and_add_ids(data, translation_dict, item_ids)`: the
dict of per-item day lists after the in-place mutation. -/
def fix_names_and_add_ids (md5hex : String → String)
    (translation item_ids : List (String × String))
    (data : List (String × List Rec)) : List (String × List Rec) :=
  data.map (fun e => (e.1, fixDays md5hex translation item_ids e.1 e.2))

/-- Python `"s".split("T")[0]`: the prefix before the first `'T'`. -/
def pySplitT (s : String) : String := ⟨s.data.takeWhile (fun c => c ≠ 'T')⟩

/-- Model of the per-day normalization inside `process_price_history`
(`src/main.py` lines 96–107): derive the calendar date from the timestamp,
translate the display name, stamp the item id from `item_ids` (`none` models
the `KeyError` on a name absent from `item_ids`), and default a missing
`order_type` to `'Closed'` (capital C, this site).  The returned triple is
(date bucket, resolved name, updated record). -/
def process_price_history_day (translation item_ids : List (String × String))
    (item_name : String) (day : Rec) : Option (String × String × Rec) :=
  match alookup day "datetime" with
  | none => none
  | some (.int _) => none
  | some (.str dt) =>
    let date := pySplitT dt
    let nm := match alookup translation item_name with
              | some t => t
              | none => item_name
    match alookup item_ids nm with
    | none => none
    | some iid =>
      let day' := aset day "item_id" (.str iid)
      let day'' := defaultClosedCap day'
      some (date, nm, day'')

/-! ### Fetch layer cache round trip (`market_engine/common.py`) -/
/-- Cache contents plus the number of HTTP requests issued so far. -/
structure FetchState where
  cache : List (String × String)
  requests : Nat
deriving DecidableEq

/-- Model of `get_cached_data(cache, url)`: lookup under the bare URL. -/
def get_cached_data (cache : List (String × String)) (url : String) : Option String :=
  alookup cache url

/-- Model of `set_cached_data(cache, cache_key, data, expiration)`; the TTL
is left to the external cache service and is not part of the state. -/
def set_cached_data (cache : List (String × String)) (cache_key : String)
    (data : String) : List (String × String) :=
  aset cache cache_key data

/-- Model of `fetch_api_data(session, url, headers, cache, ...)` on the
success path: a cache hit (consulted under the bare `url`) returns the cached
payload with no network I/O; on a miss one request is issued (`oracle` maps
the request counter to the response body) and the payload is stored under the
key `f"{url}#{headers}"` — `strHeaders` is Python's `str()` of the headers
dict, and `str(data)` on the string payload is the payload itself. -/
def fetch_api_data (strHeaders : String) (oracle : Nat → String) (url : String)
    (st : FetchState) : String × FetchState :=
  match get_cached_data st.cache url with
  | some d => (d, st)
  | none =>
    let d := oracle st.requests
    (d, { cache := set_cached_data st.cache (url ++ "#" ++ strHeaders) d,
          requests := st.requests + 1 })

/-! ### Fallback identifier assignment (`src/main.py build_item_ids`) -/
/-- Process one record of one item inside `build_item_ids`: only when the
record lacks `subtype` is an unknown (translated) name assigned a fresh
identifier `uuid.uuid4().hex[:24]` — the external random generator is the
stream `uuid` indexed by a draw counter; then `item_id` is stamped from the
map, `none` modelling the `KeyError` when the name is still absent. -/
def buildIdsRec (uuid : Nat → String) (translation : List (String × String))
    (item : String) (day : Rec) (ids : List (String × String)) (ctr : Nat) :
    Option (Rec × (List (String × String) × Nat)) :=
  let fixed := match alookup translation item with
               | some t => t
               | none => item
  let step :=
    if alookup day "subtype" = none ∧ alookup ids fixed = none
    then (aset ids fixed (uuid ctr), ctr + 1)
    else (ids, ctr)
  match alookup step.1 fixed with
  | none => none
  | some iid => some (aset day "item_id" (.str iid), step)

/-- The record loop of `build_item_ids` over one item's day list. -/
def buildIdsDays (uuid : Nat → String) (translation : List (String × String))
    (item : String) :
    List Rec → List (String × String) → Nat →
    Option (List Rec × (List (String × String) × Nat))
  | [], ids, ctr => some ([], ids, ctr)
  | d :: rest, ids, ctr =>
    match buildIdsRec uuid translation item d ids ctr with
    | none => none
    | some (d', ids', ctr') =>
      match buildIdsDays uuid translation item rest ids' ctr' with
      | none => none
      | some (rest', s) => some (d' :: rest', s)

/-- The item loop of `build_item_ids` over one history file. -/
def buildIdsItems (uuid : Nat → String) (translation : List (String × String)) :
    List (String × List Rec) → List (String × String) → Nat →
    Option (List (String × List Rec) × (List (String × String) × Nat))
  | [], ids, ctr => some ([], ids, ctr)
  | (item, days) :: rest, ids, ctr =>
    match buildIdsDays uuid translation item days ids ctr with
    | none => none
    | some (days', ids', ctr') =>
      match buildIdsItems uuid translation rest ids' ctr' with
      | none => none
      | some (rest', s) => some ((item, days') :: rest', s)

/-- The file loop of `build_item_ids` over the `output` directory. -/
def buildIdsFiles (uuid : Nat → String) (translation : List (String × String)) :
    List (List (String × List Rec)) → List (String × String) → Nat →
    Option (List (List (String × List Rec)) × (List (String × String) × Nat))
  | [], ids, ctr => some ([], ids, ctr)
  | f :: rest, ids, ctr =>
    match buildIdsItems uuid translation f ids ctr with
    | none => none
    | some (f', ids', ctr') =>
      match buildIdsFiles uuid translation rest ids' ctr' with
      | none => none
      | some (rest', s) => some (f' :: rest', s)

/-- Model of `build_item_ids(items, translation_dict)` (`src/main.py`): seed
the map with the catalog (`item_name -> id`), then walk every history file;
the result is the final map and the rewritten files, or `none` on
`KeyError`. -/
def build_item_ids (uuid : Nat → String) (items : List (String × String))
    (translation : List (String × String)) (files : List (List (String × List Rec))) :
    Option (List (String × String) × List (List (String × List Rec))) :=
  let ids0 := items.foldl (fun acc p => aset acc p.1 p.2) []
  match buildIdsFiles uuid translation files ids0 0 with
  | none => none
  | some (files', ids', _) => some (ids', files')

/-! ### Retry behaviour of the fetch primitives

Three fetch variants coexist in the source: `make_request` inside
`common.fetch_api_data` (tenacity, `stop_after_attempt(5)`, `wait_fixed(1)`),
`fetch_wfm_data` in `market_engine/modules/MarketData.py` (a 3-iteration
loop that falls through to `None`), and the legacy
`modules/MarketAPI.fetch_api_data` (a `while True` loop with growing sleep).
The network is an oracle mapping the attempt index to a response; a transport
error is folded into a non-success status, and `raise_for_status` raises for
status ≥ 400. -/
/-- One HTTP response: status code and body. -/
structure HttpResponse where
  status : Nat
  body : String
deriving DecidableEq

/-- The error surfaced after tenacity exhausts its attempts: the `RetryError`
wraps the last `ClientResponseError`, which carries the request URL and the
failing status. -/
structure FetchError where
  url : String
  status : Nat
deriving DecidableEq

/-- The tenacity-driven attempt loop of `make_request`: up to `n` more
attempts, `i` attempts already made; returns the outcome and the total number
of requests issued. -/
def tenacityLoop (oracle : Nat → HttpResponse) (url : String) :
    Nat → Nat → (Except FetchError String) × Nat
  | 0, i => (.error ⟨url, (oracle (i - 1)).status⟩, i)
  | n + 1, i =>
    if (oracle i).status < 400 then (.ok (oracle i).body, i + 1)
    else tenacityLoop oracle url n (i + 1)

/-- Model of `make_request` inside `common.fetch_api_data`, decorated with
`retry(stop=stop_after_attempt(5), wait=wait_fixed(1))`. -/
def make_request (oracle : Nat → HttpResponse) (url : String) :
    (Except FetchError String) × Nat :=
  tenacityLoop oracle url 5 0

/-- The `for _ in range(retries)` loop of `fetch_wfm_data` (`retries = 3`):
a non-200 status raises `ClientError`, which is caught and logged; falling
out of the loop returns Python `None`. -/
def wfmLoop (oracle : Nat → HttpResponse) :
    Nat → Nat → (Option String) × Nat
  | 0, i => (none, i)
  | n + 1, i =>
    if (oracle i).status = 200 then (some (oracle i).body, i + 1)
    else wfmLoop oracle n (i + 1)

/-- Model of `fetch_wfm_data(url)`: cache hit short-circuits, otherwise at
most 3 attempts and a silent `None` on exhaustion. -/
def fetch_wfm_data (cache : List (String × String)) (oracle : Nat → HttpResponse)
    (url : String) : (Option String) × Nat :=
  match alookup cache url with
  | some d => (some d, 0)
  | none => wfmLoop oracle 3 0

/-- The `while True` retry loop of the legacy `modules/MarketAPI.fetch_api_data`:
it never stops retrying on `ClientResponseError`; `fuel` bounds the unrolling
of the unbounded loop for evaluation, with `none` meaning "still retrying
after `fuel` attempts". -/
def legacyLoop (oracle : Nat → HttpResponse) :
    Nat → Nat → (Option String) × Nat
  | 0, i => (none, i)
  | n + 1, i =>
    if (oracle i).status < 400 then (some (oracle i).body, i + 1)
    else legacyLoop oracle n (i + 1)

/-- Model of the legacy `fetch_api_data(cache, session, url)` of
`src/modules/MarketAPI.py`. -/
def fetch_api_data_legacy (cache : List (String × String)) (oracle : Nat → HttpResponse)
    (url : String) (fuel : Nat) : (Option String) × Nat :=
  match alookup cache url with
  | some d => (some d, 0)
  | none => legacyLoop oracle fuel 0

/-! ### Fuzzy item resolution (`market_engine/modules/MarketData.py`)

`fuzz.ratio` is the external fuzzywuzzy similarity score; the embedding takes
it as a parameter `ratio : String → String → Nat` (real scores lie in
0..100, assumed by hypothesis where the short-circuit at 100 matters). -/
/-- Model of `remove_blueprint(s)` (the `market_engine` variants, identical
in `MarketData.py` and `Models/MarketDatabase.py`): lowercase and tokenize;
strip a trailing `'blueprint'` unless the preceding word is a variant
marker.  When `'blueprint'` is the only word, the Python indexing
`words[-2]` raises `IndexError`, modeled as `none`. -/
def remove_blueprint (s : String) : Option String :=
  let words := pyWords (pyLower s)
  if words.getLast? = some "blueprint" then
    if words.length < 2 then none
    else if words.getD (words.length - 2) "" ∈ (["prime", "wraith", "vandal"] : List String)
    then some (pyLower s)
    else some (pyJoin " " words.dropLast)
  else some (pyLower s)

/-- Model of the legacy `remove_blueprint` in `src/modules/MarketData.py`:
the guard is `words[-2:-1] != ['prime']`, a slice — total even on the single
word `'blueprint'` (the slice is `[]`), and the exception set is only
`'prime'`. -/
def remove_blueprint_legacy (s : String) : String :=
  let words := pyWords (pyLower s)
  if words.getLast? = some "blueprint" ∧
      (if words.length < 2 then ([] : List String) else [words.getD (words.length - 2) ""])
        ≠ ["prime"]
  then pyJoin " " words.dropLast
  else pyLower s

/-- The best-tracking loop of `closest_common_word`: strict improvement
only. -/
def ccwLoop (ratio : String → String → Nat) (word : String) :
    List String → Option String → Nat → Option String × Nat
  | [], best, bestScore => (best, bestScore)
  | cw :: rest, best, bestScore =>
    if bestScore < ratio word cw then ccwLoop ratio word rest (some cw) (ratio word cw)
    else ccwLoop ratio word rest best bestScore

/-- Model of `closest_common_word(word, common_words, threshold)`.  Python
iterates a `set` in an arbitrary but fixed order; the embedding fixes the
listed order. -/
def closest_common_word (ratio : String → String → Nat) (word : String)
    (common_words : List String) (threshold : Nat) : Option String :=
  let r := ccwLoop ratio word common_words none 0
  if threshold ≤ r.2 then r.1 else none

/-- Python truthiness of the `closest_common_word` result as used in the
filter: `None` and the empty string are falsy. -/
def pyTruthy : Option String → Bool
  | none => false
  | some s => s ≠ ""

/-- Model of `remove_common_words(name, common_words)`: strip the blueprint
suffix (propagating its possible `IndexError`), then drop every word that
fuzzy-matches a common word at threshold 80 — except words on the ignore
list. -/
def remove_common_words (ratio : String → String → Nat) (name : String)
    (common_words : List String) : Option String :=
  match remove_blueprint name with
  | none => none
  | some name' =>
    some (pyJoin " " ((pyWords name').filter (fun w =>
      !(pyTruthy (closest_common_word ratio w common_words 80) &&
        !(["primed"] : List String).contains w))))

/-- One word of `replace_aliases`: the first alias whose similarity reaches
the threshold (80) provides the replacement, in dict insertion order. -/
def replaceWord (ratio : String → String → Nat) (aliases : List (String × String))
    (word : String) : String :=
  match aliases.find? (fun a => 80 ≤ ratio word a.1) with
  | some a => a.2
  | none => word

/-- Model of `replace_aliases(name, aliases)`. -/
def replace_aliases (ratio : String → String → Nat) (name : String)
    (aliases : List (String × String)) : String :=
  pyJoin " " ((pyWords name).map (replaceWord ratio aliases))

/-- A catalog item as consumed by `find_best_match`. -/
structure Item where
  item_name : String
  aliases : List String
deriving DecidableEq

/-- Model of `get_item_names(item)`. -/
def get_item_names (it : Item) : List String := it.item_name :: it.aliases

/-- The noise-word set hardcoded in `find_best_match`. -/
def commonWords : List String := ["arcane", "prime", "scene", "set"]

/-- The word-alias dict hardcoded in `find_best_match`, in insertion
order. -/
def staticAliases : List (String × String) := [("head", "neuroptics"), ("taserman", "volt")]

/-- The per-item maximum similarity of the cleaned query against the item's
cleaned name and aliases (`max(fuzz.ratio(item_name, name) for name in
processed_names)`, over a non-empty list so the fold from 0 is that
maximum); `none` propagates an `IndexError` raised while cleaning a
candidate name. -/
def itemScore (ratio : String → String → Nat) (q : String) (it : Item) : Option Nat :=
  match (get_item_names it).mapM (fun n => remove_common_words ratio n commonWords) with
  | none => none
  | some ns => some (ns.foldl (fun m n => max m (ratio q n)) 0)

/-- The candidate loop of `find_best_match`: strict improvement, with the
short-circuit `if best_score == 100: break` checked after the update. -/
def fbmLoop (ratio : String → String → Nat) (q : String) :
    List Item → Nat → Option Item → Option (Nat × Option Item)
  | [], best, bi => some (best, bi)
  | it :: rest, best, bi =>
    match itemScore ratio q it with
    | none => none
    | some sc =>
      let best' := if best < sc then sc else best
      let bi' := if best < sc then some it else bi
      if best' = 100 then some (best', bi')
      else fbmLoop ratio q rest best' bi'

/-- The query after word-alias substitution and noise-word removal. -/
def cleanedQuery (ratio : String → String → Nat) (item_name : String) : Option String :=
  remove_common_words ratio (replace_aliases ratio item_name staticAliases) commonWords

/-- Model of `find_best_match(item_name, items)`: `none` propagates an
`IndexError` raised during cleaning. -/
def find_best_match (ratio : String → String → Nat) (item_name : String)
    (items : List Item) : Option (Nat × Option Item) :=
  match cleanedQuery ratio item_name with
  | none => none
  | some q => fbmLoop ratio q items 0 none

/-- Model of `MarketDatabase._get_fuzzy_item(item_name)`: accept the best
match only above the fixed threshold 50, otherwise report "not found"
(`some none`); the outer `none` propagates a cleaning exception. -/
def get_fuzzy_item (ratio : String → String → Nat) (item_name : String)
    (items : List Item) : Option (Option Item) :=
  match find_best_match ratio item_name items with
  | none => none
  | some r => some (if 50 < r.1 then r.2 else none)

/-- Constant-free similarity used by witnesses: 100 on equal strings, else
0. -/
def ratioEq (a b : String) : Nat := if a = b then 100 else 0

/-! ### Order-book parsing and filtering
(`MarketItem.parse_orders` / `MarketItem.filter_orders`,
`market_engine/modules/MarketData.py`; the `src/modules` variant differs only
in dropping the `users` side table) -/
/-- A raw order as returned by the warframe.market API. -/
structure RawOrder where
  order_type : String
  last_update : String
  quantity : Nat
  platinum : Nat
  user_id : String
  user_name : String
  user_status : String
  subtype : Option String
  mod_rank : Option Nat
deriving DecidableEq

/-- A parsed order as stored in `self.orders`. -/
structure ParsedOrder where
  last_update : String
  quantity : Nat
  price : Nat
  user : String
  state : String
  subtype : Option String
deriving DecidableEq

/-- Build one `parsed_order` dict: `price` is the platinum amount, and a
`mod_rank` key overwrites the `subtype` entry with `f"R{mod_rank}"`. -/
def parseOrder (o : RawOrder) : ParsedOrder :=
  { last_update := o.last_update
    quantity := o.quantity
    price := o.platinum
    user := o.user_name
    state := o.user_status
    subtype := match o.mod_rank with
               | some r => some ("R" ++ toString r)
               | none => o.subtype }

/-- The routing loop of `parse_orders`: append each parsed order to
`self.orders[order_type]` — a key other than `'buy'`/`'sell'` raises
`KeyError` (`none`) — while collecting the `users` id→name dict. -/
def routeOrders : List RawOrder → List ParsedOrder → List ParsedOrder →
    List (String × String) →
    Option (List ParsedOrder × List ParsedOrder × List (String × String))
  | [], buys, sells, users => some (buys, sells, users)
  | o :: rest, buys, sells, users =>
    let users' := aset users o.user_id o.user_name
    if o.order_type = "sell" then routeOrders rest buys (sells ++ [parseOrder o]) users'
    else if o.order_type = "buy" then routeOrders rest (buys ++ [parseOrder o]) sells users'
    else none

/-- The sort key order `key=lambda x: (x['price'], x['last_update'])`:
lexicographic on price (a number) then on the timestamp string compared by
code point, as Python compares tuples. -/
def keyLe (a b : ParsedOrder) : Prop :=
  a.price < b.price ∨
    (a.price = b.price ∧ charListLe a.last_update.data b.last_update.data = true)

/-- The reversed key order used for the buy side (`reverse=True`). -/
def keyGe (a b : ParsedOrder) : Prop := keyLe b a

instance : DecidableRel keyLe := fun a b =>
  inferInstanceAs (Decidable (a.price < b.price ∨
    (a.price = b.price ∧ charListLe a.last_update.data b.last_update.data = true)))

instance : DecidableRel keyGe := fun a b => inferInstanceAs (Decidable (keyLe b a))

/-- The two order lists of a `MarketItem` after parsing. -/
structure OrderBook where
  buy : List ParsedOrder
  sell : List ParsedOrder
deriving DecidableEq

/-- Model of `MarketItem.parse_orders(orders)`: route, then sort the sell
side ascending and the buy side descending by `(price, last_update)`.
Python's `list.sort` is a stable sort; insertion sort realises the same
specification (the claims here concern ordering, not stability). -/
def parse_orders (orders : List RawOrder) :
    Option (OrderBook × List (String × String)) :=
  match routeOrders orders [] [] [] with
  | none => none
  | some (buys, sells, users) =>
    some (⟨List.insertionSort keyGe buys, List.insertionSort keyLe sells⟩, users)

/-- A filter value in `filter_orders`: a string, an int, or a homogeneous
list of either; `fnone` is Python `None`. -/
inductive FilterVal where
  | fstr (s : String)
  | fint (n : Int)
  | flistS (l : List String)
  | flistI (l : List Int)
  | fnone
deriving DecidableEq

/-- Python `order.get(key)` on a parsed-order dict. -/
def getField (o : ParsedOrder) (key : String) : Option PyVal :=
  if key = "last_update" then some (.str o.last_update)
  else if key = "quantity" then some (.int o.quantity)
  else if key = "price" then some (.int o.price)
  else if key = "user" then some (.str o.user)
  else if key = "state" then some (.str o.state)
  else if key = "subtype" then o.subtype.map .str
  else none

/-- Model of the nested `apply_filter(value, filter_value, field)`: a plain
string filter value is wrapped into a one-element list; numeric values honour
the `greater`/`less`/default-equality modes (comparing an int against a list
raises `TypeError`, while `==` against a list is just `False`); other values
go through (black/white)list membership, where `in` on an int filter value
raises `TypeError`.  `none` models a raised `TypeError`. -/
def applyFilter (value : Option PyVal) (filter_value : FilterVal)
    (filter_mode : Option String) : Option Bool :=
  let fv : FilterVal := match filter_value with
                        | .fstr s => FilterVal.flistS [s]
                        | x => x
  match fv with
  | .fnone => some true
  | fv =>
    match value with
    | some (.int n) =>
      if filter_mode = some "greater" then
        match fv with
        | .fint m => some (decide (m < n))
        | _ => none
      else if filter_mode = some "less" then
        match fv with
        | .fint m => some (decide (n < m))
        | _ => none
      else
        match fv with
        | .fint m => some (decide (n = m))
        | _ => some false
    | some (.str s) =>
      if filter_mode = some "blacklist" then
        match fv with
        | .flistS l => some (!l.contains s)
        | .flistI _ => some true
        | _ => none
      else
        match fv with
        | .flistS l => some (l.contains s)
        | .flistI _ => some false
        | _ => none
    | none =>
      if filter_mode = some "blacklist" then
        match fv with
        | .flistS _ => some true
        | .flistI _ => some true
        | _ => none
      else
        match fv with
        | .flistS _ => some false
        | .flistI _ => some false
        | _ => none

/-- Python `all(apply_filter(order.get(key), fv, key) for key, fv in
filters.items())`: short-circuits on the first `False`, propagates a raised
`TypeError`. -/
def passes (filters : List (String × FilterVal)) (mode : List (String × String))
    (o : ParsedOrder) : Option Bool :=
  match filters with
  | [] => some true
  | (k, fv) :: rest =>
    match applyFilter (getField o k) fv (alookup mode k) with
    | none => none
    | some false => some false
    | some true => passes rest mode o

/-- The list comprehension of `filter_orders`: keep the orders passing every
filter, propagating exceptions. -/
def filterAll (filters : List (String × FilterVal)) (mode : List (String × String)) :
    List ParsedOrder → Option (List ParsedOrder)
  | [] => some []
  | o :: rest =>
    match passes filters mode o with
    | none => none
    | some true => (filterAll filters mode rest).map (o :: ·)
    | some false => filterAll filters mode rest

/-- Model of `MarketItem.filter_orders(order_type, num_orders, filters,
mode)`: select the side (`KeyError` on any other key), filter, and truncate
to `num_orders`. -/
def filter_orders (book : OrderBook) (order_type : String) (num_orders : Nat)
    (filters : List (String × FilterVal)) (mode : List (String × String)) :
    Option (List ParsedOrder) :=
  match (if order_type = "sell" then some book.sell
         else if order_type = "buy" then some book.buy
         else none) with
  | none => none
  | some orders => (filterAll filters mode orders).map (fun l => l.take num_orders)

/-- Each frame is non-empty, so a buffer holds at least as many bytes as it
holds frames. -/
theorem frames_length_le {fs : List (List Nat × List Nat)}
    (h : ∀ p ∈ fs, p.1 ≠ []) : fs.length ≤ ((fs.map Prod.fst).flatten).length := by
  induction fs with
  | nil => simp
  | cons p rest ih =>
    simp only [List.map_cons, List.flatten_cons, List.length_append, List.length_cons]
    have h1 : p.1 ≠ [] := h p (by simp)
    have h2 := ih (fun q hq => h q (by simp [hq]))
    have h3 : 0 < p.1.length := List.length_pos.mpr h1
    omega

/-- A non-empty frame list flattens to a non-empty byte buffer. -/
theorem frames_flatten_ne_nil {codec : Codec} {fs : List (List Nat × List Nat)}
    (hne : fs ≠ []) (h : ∀ p ∈ fs, IsFrame codec p.1 p.2) :
    (fs.map Prod.fst).flatten ≠ [] := by
  cases fs with
  | nil => exact absurd rfl hne
  | cons p rest =>
    have h1 : p.1 ≠ [] := (h p (by simp)).1
    simp only [List.map_cons, List.flatten_cons, ne_eq, List.append_eq_nil]
    intro hc
    exact h1 hc.1

/-- Running the `decompress_lzma` loop on a concatenation of frames followed
by garbage that is empty or fails to decompress yields the accumulated output
followed by all the frames' contents. -/
theorem decompLoop_frames (codec : Codec) (fs : List (List Nat × List Nat)) :
    fs ≠ [] →
    (∀ p ∈ fs, IsFrame codec p.1 p.2) →
    ∀ g : List Nat, (g = [] ∨ codec.decompress g = .error) →
    ∀ (acc : List (List Nat)) (fuel : Nat), fs.length < fuel →
    decompLoop codec fuel ((fs.map Prod.fst).flatten ++ g) acc =
      some (acc.flatten ++ (fs.map Prod.snd).flatten) := by
  induction fs with
  | nil => intro h; exact absurd rfl h
  | cons p rest ih =>
    intro _ hframes g hg acc fuel hfuel
    obtain ⟨m, rfl⟩ : ∃ m, fuel = m + 1 := ⟨fuel - 1, by omega⟩
    have hp : IsFrame codec p.1 p.2 := hframes p (by simp)
    cases rest with
    | nil =>
      simp only [List.map_cons, List.map_nil, List.flatten_cons, List.flatten_nil,
        List.append_nil]
      rw [decompLoop, hp.2 g]
      dsimp only
      by_cases hge : g = []
      · subst hge; simp
      · have hgerr : codec.decompress g = .error := hg.resolve_left hge
        simp only [hge, if_false]
        have hm1 : 1 ≤ m := by simpa using Nat.lt_succ_iff.mp hfuel
        obtain ⟨k, rfl⟩ : ∃ k, m = k + 1 := ⟨m - 1, by omega⟩
        rw [decompLoop, hgerr]
        simp
    | cons q rest' =>
      have hq1 : q.1 ≠ [] := (hframes q (by simp)).1
      have hunused : q.1 ++ ((rest'.map Prod.fst).flatten ++ g) ≠ [] := by
        intro hc
        rw [List.append_eq_nil] at hc
        exact hq1 hc.1
      have hdata : ((p :: q :: rest').map Prod.fst).flatten ++ g
          = p.1 ++ (q.1 ++ ((rest'.map Prod.fst).flatten ++ g)) := by simp
      rw [hdata, decompLoop, hp.2 _]
      dsimp only
      rw [if_neg hunused, if_neg (by simp)]
      have hrec := ih (by simp) (fun r hr => hframes r (by simp [hr])) g hg
        (acc ++ [p.2]) m (by simp only [List.length_cons] at hfuel ⊢; omega)
      have heq : ((q :: rest').map Prod.fst).flatten ++ g
          = q.1 ++ ((rest'.map Prod.fst).flatten ++ g) := by simp
      rw [heq] at hrec
      rw [hrec]
      simp

/-- `decompress_lzma` on a valid stream followed by discardable garbage
returns the stream's full decompressed content. -/
theorem decompress_lzma_valid (codec : Codec) (s c g : List Nat)
    (hv : ValidStream codec s c) (hg : g = [] ∨ codec.decompress g = .error) :
    decompress_lzma codec (s ++ g) = some c := by
  obtain ⟨fs, hne, hframes, rfl, rfl⟩ := hv
  have hlen : fs.length ≤ ((fs.map Prod.fst).flatten).length :=
    frames_length_le (fun p hp => (hframes p hp).1)
  have := decompLoop_frames codec fs hne hframes g hg []
    (((fs.map Prod.fst).flatten ++ g).length + 1) (by rw [List.length_append]; omega)
  simpa [decompress_lzma] using this

/-- Claim C1 — stream repair decoder: for every byte buffer that is a valid
compressed stream (a non-empty concatenation of self-delimiting frames)
followed by zero or more trailing corrupted bytes (empty, or failing to
decompress), `fix` returns exactly the decompressed content of the original
valid stream, treating the trailing corrupt remainder as discardable
garbage. -/
theorem fix_recovers_valid_prefix (codec : Codec) (s c g : List Nat)
    (hv : ValidStream codec s c) (hg : g = [] ∨ codec.decompress g = .error) :
    fix codec (s ++ g) = some c := by
  have hs : s ≠ [] := by
    obtain ⟨fs, hne, hframes, rfl, -⟩ := hv
    exact frames_flatten_ne_nil hne hframes
  have hd : decompress_lzma codec (s ++ g) = some c := decompress_lzma_valid codec s c g hv hg
  obtain ⟨m, hm⟩ : ∃ m, (s ++ g).length = m + 1 := by
    cases hsg : (s ++ g).length with
    | zero => simp at hsg; exact absurd hsg.1 hs
    | succ k => exact ⟨k, rfl⟩
  rw [fix, hm, fixLoop, ← hm, List.take_length, hd]

/-- Witness for C1: a concrete two-frame buffer with one corrupt trailing
byte decodes to the two frames' contents. -/
theorem fix_recovers_valid_prefix_witness :
    fix toyCodec [2, 1, 7, 2, 1, 8, 0] = some [7, 8] := by
  have hv : ValidStream toyCodec ([2, 1, 7] ++ [2, 1, 8]) ([7] ++ [8]) := by
    refine ⟨[([2, 1, 7], [7]), ([2, 1, 8], [8])], by simp, ?_, by simp, by simp⟩
    intro p hp
    simp only [List.mem_cons, List.mem_singleton] at hp
    rcases hp with rfl | rfl | h
    · refine ⟨by simp, fun g => ?_⟩
      show toyCodec.decompress (2 :: 1 :: 7 :: g) = .ok [7] g true
      simp [toyCodec, toyDecomp]
    · refine ⟨by simp, fun g => ?_⟩
      show toyCodec.decompress (2 :: 1 :: 8 :: g) = .ok [8] g true
      simp [toyCodec, toyDecomp]
    · simp at h
  exact fix_recovers_valid_prefix toyCodec ([2, 1, 7] ++ [2, 1, 8]) ([7] ++ [8]) [0]
    hv (Or.inr rfl)

/-- Claim C5, counterexample: the buffer `[0]` fails decompression from byte 0
(its single non-empty prefix raises `LZMAError`, as does the direct
`decompress_lzma` call), yet `fix` does not propagate an error: it trims down
to the empty buffer, whose decompression trivially succeeds, and returns the
empty content. -/
theorem fix_corrupt_no_error_counterexample :
    toyCodec.decompress [0] = .error ∧
    decompress_lzma toyCodec [0] = none ∧
    fix toyCodec [0] = some [] := by
  decide

/-- Claim C5, amended: for every input buffer all of whose non-empty prefixes
fail `decompress_lzma`, the trimming loop of `fix` reaches length 0, where
decompressing the empty buffer succeeds with empty output (real `lzma`
returns `b""` for empty input), so `fix` returns the empty content instead of
propagating a decode error. -/
theorem fix_corrupt_returns_empty (codec : Codec) (byt : List Nat)
    (h0 : codec.decompress [] = .ok [] [] false)
    (hfail : ∀ k, 0 < k → k ≤ byt.length → decompress_lzma codec (byt.take k) = none) :
    fix codec byt = some [] := by
  have hempty : decompress_lzma codec [] = some [] := by
    simp [decompress_lzma, decompLoop, h0]
  suffices h : ∀ n, n ≤ byt.length → fixLoop codec byt n = some [] from h _ le_rfl
  intro n
  induction n with
  | zero => intro _; exact hempty
  | succ k ih =>
    intro hk
    rw [fixLoop, hfail (k + 1) (by omega) hk]
    exact ih (by omega)

/-- Witness for the amended C5: every non-empty prefix of `[0, 0]` fails to
decompress under the toy codec, and `fix` returns the empty content. -/
theorem fix_corrupt_returns_empty_witness :
    fix toyCodec [0, 0] = some [] := by
  refine fix_corrupt_returns_empty toyCodec [0, 0] rfl ?_
  intro k h1 h2
  simp only [List.length_cons, List.length_nil] at h2
  interval_cases k
  · decide
  · decide

theorem alookup_aset_self {α : Type} (l : List (String × α)) (k : String) (v : α) :
    alookup (aset l k v) k = some v := by
  induction l with
  | nil => simp [aset, alookup]
  | cons p rest ih =>
    by_cases h : p.1 = k
    · simp [aset, alookup, h]
    · simp [aset, alookup, h, ih]

theorem alookup_aset_ne {α : Type} (l : List (String × α)) (k k' : String) (v : α)
    (h : k ≠ k') : alookup (aset l k' v) k = alookup l k :=  by
  induction l with
  | nil =>
    simp only [aset, alookup]
    rw [if_neg (fun hc : k' = k => h hc.symm)]
  | cons p rest ih =>
    by_cases hp : p.1 = k'
    · simp only [aset, if_pos hp, alookup]
      rw [if_neg (fun hc => h hc.symm), if_neg (by rw [hp]; exact fun hc => h hc.symm)]
    · simp only [aset, if_neg hp, alookup]
      by_cases hk : p.1 = k
      · rw [if_pos hk, if_pos hk]
      · rw [if_neg hk, if_neg hk, ih]

theorem chunksAux_flatten {α : Type} (n : Nat) (hn : 0 < n) :
    ∀ (fuel : Nat) (l : List α), l.length ≤ fuel → (chunksAux n fuel l).flatten = l := by
  intro fuel
  induction fuel with
  | zero =>
    intro l hl
    have : l = [] := List.length_eq_zero.mp (Nat.le_zero.mp hl)
    subst this
    simp [chunksAux]
  | succ fuel ih =>
    intro l hl
    cases l with
    | nil => simp [chunksAux]
    | cons x xs =>
      simp only [chunksAux, List.flatten_cons]
      rw [ih ((x :: xs).drop n) (by simp only [List.length_drop, List.length_cons] at hl ⊢; omega)]
      exact List.take_append_drop n (x :: xs)

theorem chunksAux_mem {α : Type} (n : Nat) (hn : 0 < n) :
    ∀ (fuel : Nat) (l : List α) (b : List α), b ∈ chunksAux n fuel l →
      0 < b.length ∧ b.length ≤ n := by
  intro fuel
  induction fuel with
  | zero =>
    intro l b hb
    cases l <;> simp [chunksAux] at hb
  | succ fuel ih =>
    intro l b hb
    cases l with
    | nil => simp [chunksAux] at hb
    | cons x xs =>
      simp only [chunksAux, List.mem_cons] at hb
      rcases hb with rfl | hb
      · constructor
        · simp only [List.length_take, List.length_cons]
          omega
        · simp only [List.length_take]
          omega
      · exact ih _ b hb

theorem runBatches_cons (fails : List Row → Bool) (b : List Row) (bs : List (List Row))
    (c : Conn) :
    runBatches fails (b :: bs) c =
      if fails b = true
      then (Conn.rollback { c with calls := c.calls ++ [b] }, false)
      else runBatches fails bs { c with pending := c.pending ++ b, calls := c.calls ++ [b] } := by
  by_cases hf : fails b = true <;> simp [runBatches, executemany, hf]

theorem runBatches_true (fails : List Row → Bool) :
    ∀ (bs : List (List Row)) (c : Conn), (runBatches fails bs c).2 = true →
      (runBatches fails bs c).1.committed = c.committed ++ c.pending ++ bs.flatten ∧
      (runBatches fails bs c).1.commits = c.commits + 1 ∧
      (runBatches fails bs c).1.rollbacks = c.rollbacks ∧
      (runBatches fails bs c).1.calls = c.calls ++ bs := by
  intro bs
  induction bs with
  | nil => intro c _; simp [runBatches, Conn.commit]
  | cons b rest ih =>
    intro c hok
    rw [runBatches_cons] at hok ⊢
    by_cases hf : fails b = true
    · rw [if_pos hf] at hok; simp at hok
    · rw [if_neg hf] at hok ⊢
      obtain ⟨h1, h2, h3, h4⟩ := ih _ hok
      refine ⟨?_, by simpa using h2, by simpa using h3, ?_⟩
      · rw [h1]; simp
      · rw [h4]; simp

theorem runBatches_false (fails : List Row → Bool) :
    ∀ (bs : List (List Row)) (c : Conn), (runBatches fails bs c).2 = false →
      (runBatches fails bs c).1.committed = c.committed ∧
      (runBatches fails bs c).1.commits = c.commits ∧
      (runBatches fails bs c).1.rollbacks = c.rollbacks + 1 := by
  intro bs
  induction bs with
  | nil => intro c h; simp [runBatches] at h
  | cons b rest ih =>
    intro c hko
    rw [runBatches_cons] at hko ⊢
    by_cases hf : fails b = true
    · rw [if_pos hf]
      simp [Conn.rollback]
    · rw [if_neg hf] at hko ⊢
      obtain ⟨h1, h2, h3⟩ := ih _ hko
      exact ⟨by simpa using h1, by simpa using h2, by simpa using h3⟩

/-- Claim C2 — transactional batched insert: `insert_item_statistics` splits
the bound rows into batches of at most 10,000 (all inside one transaction per
run); if every batch succeeds, exactly one commit happens and precisely all
rows become durable; if any batch raises, the whole transaction is rolled
back — no rows from any batch are committed — and the failure is re-raised to
the caller (`false`). -/
theorem insert_item_statistics_transactional (fails : List Row → Bool)
    (records : List Rec) (c : Conn) :
    ((insert_item_statistics fails records c).2 = true →
        (insert_item_statistics fails records c).1.committed
          = c.committed ++ buildValues records ∧
        (insert_item_statistics fails records c).1.commits = c.commits + 1 ∧
        (insert_item_statistics fails records c).1.rollbacks = c.rollbacks ∧
        (insert_item_statistics fails records c).1.calls
          = c.calls ++ chunksOf batchSize (buildValues records)) ∧
    ((insert_item_statistics fails records c).2 = false →
        (insert_item_statistics fails records c).1.committed = c.committed ∧
        (insert_item_statistics fails records c).1.commits = c.commits ∧
        (insert_item_statistics fails records c).1.rollbacks = c.rollbacks + 1) ∧
    (∀ b ∈ chunksOf batchSize (buildValues records), 0 < b.length ∧ b.length ≤ batchSize) ∧
    (chunksOf batchSize (buildValues records)).flatten = buildValues records := by
  have hflat : (chunksOf batchSize (buildValues records)).flatten = buildValues records :=
    chunksAux_flatten batchSize (by simp [batchSize]) _ _ le_rfl
  refine ⟨?_, ?_, ?_, hflat⟩
  · intro hok
    simp only [insert_item_statistics] at hok ⊢
    obtain ⟨h1, h2, h3, h4⟩ := runBatches_true fails _ c.begin hok
    refine ⟨?_, by simpa [Conn.begin] using h2, by simpa [Conn.begin] using h3,
      by simpa [Conn.begin] using h4⟩
    rw [h1, hflat]
    simp [Conn.begin]
  · intro hko
    simp only [insert_item_statistics] at hko ⊢
    obtain ⟨h1, h2, h3⟩ := runBatches_false fails _ c.begin hko
    exact ⟨by simpa [Conn.begin] using h1, by simpa [Conn.begin] using h2,
      by simpa [Conn.begin] using h3⟩
  · intro b hb
    exact chunksAux_mem batchSize (by simp [batchSize]) _ _ b hb

/-- Witness for C2 at concrete inputs: with a never-failing database the run
commits once and makes all rows durable; with an always-failing database
nothing is committed and one rollback happens. -/
theorem insert_item_statistics_transactional_witness :
    (insert_item_statistics (fun _ => false)
        [[("order_type", PyVal.str "live")], []] ⟨[], [], 0, 0, []⟩).1.committed
      = [[some (PyVal.str "live")], [some (PyVal.str "Closed")]] ∧
    (insert_item_statistics (fun _ => false)
        [[("order_type", PyVal.str "live")], []] ⟨[], [], 0, 0, []⟩).1.commits = 1 ∧
    (insert_item_statistics (fun _ => true)
        [[("order_type", PyVal.str "live")], []] ⟨[], [], 0, 0, []⟩).1.committed = [] ∧
    (insert_item_statistics (fun _ => true)
        [[("order_type", PyVal.str "live")], []] ⟨[], [], 0, 0, []⟩).1.rollbacks = 1 := by
  have hok := (insert_item_statistics_transactional (fun _ => false)
    [[("order_type", PyVal.str "live")], []] ⟨[], [], 0, 0, []⟩).1 (by decide)
  have hko := (insert_item_statistics_transactional (fun _ => true)
    [[("order_type", PyVal.str "live")], []] ⟨[], [], 0, 0, []⟩).2.1 (by decide)
  refine ⟨?_, ?_, ?_, ?_⟩
  · rw [hok.1]; decide
  · rw [hok.2.1]
  · rw [hko.1]
  · rw [hko.2.2]

/-- Claim C3, counterexample: a record lacking `order_type` is normalized to
the string `'Closed'` — not `'closed'` — both by `process_price_history` and
by `insert_item_statistics`, so the capitalisation reaching persistence on
those paths differs from the claimed `'closed'`. -/
theorem order_type_closed_casing_counterexample :
    (process_price_history_day [] [("Foo", "id1")] "Foo"
        [("datetime", PyVal.str "2023-01-01T00:00:00Z")]).map
        (fun x => alookup x.2.2 "order_type")
      = some (some (PyVal.str "Closed")) ∧
    buildValues [[("order_type", PyVal.str "live")], []]
      = [[some (PyVal.str "live")], [some (PyVal.str "Closed")]] ∧
    "Closed" ≠ "closed" := by
  decide

/-- Claim C3, amended: every raw statistic record lacking `order_type` gains
a default before reaching persistence, but the casing is inconsistent across
the pipeline: `fix_names_and_add_ids` writes `'closed'` while
`process_price_history` and `insert_item_statistics` write `'Closed'`;
records already carrying an `order_type` are left unchanged by all three
sites. -/
theorem order_type_defaulting (md5hex : String → String)
    (item_ids : List (String × String)) (nm : String) (r : Rec) :
    (alookup r "order_type" = none →
        alookup (fixDayCommon md5hex item_ids nm r) "order_type"
          = some (.str "closed") ∧
        alookup (defaultClosedCap r) "order_type" = some (.str "Closed")) ∧
    (∀ v, alookup r "order_type" = some v →
        alookup (fixDayCommon md5hex item_ids nm r) "order_type" = some v ∧
        alookup (defaultClosedCap r) "order_type" = some v) := by
  constructor
  · intro hnone
    constructor
    · rw [fixDayCommon]
      rw [alookup_aset_ne _ _ _ _ (by decide)]
      simp only [hnone, Option.isSome_none, Bool.false_eq_true, if_false]
      exact alookup_aset_self r "order_type" _
    · rw [defaultClosedCap]
      simp only [hnone, Option.isSome_none, Bool.false_eq_true, if_false]
      exact alookup_aset_self r "order_type" _
  · intro v hv
    constructor
    · rw [fixDayCommon]
      rw [alookup_aset_ne _ _ _ _ (by decide)]
      simp [hv]
    · rw [defaultClosedCap]
      simp [hv]

/-- Witness for the amended C3 on concrete records: the three sites' handling
of a record without and a record with `order_type`. -/
theorem order_type_defaulting_witness :
    alookup (fixDayCommon (fun _ => "h") [] "Foo" [("avg_price", PyVal.int 3)]) "order_type"
      = some (.str "closed") ∧
    alookup (defaultClosedCap [("avg_price", PyVal.int 3)]) "order_type"
      = some (.str "Closed") ∧
    alookup (fixDayCommon (fun _ => "h") [] "Foo" [("order_type", PyVal.str "live")])
        "order_type" = some (.str "live") ∧
    alookup (defaultClosedCap [("order_type", PyVal.str "live")]) "order_type"
      = some (.str "live") := by
  have h1 := (order_type_defaulting (fun _ => "h") [] "Foo" [("avg_price", PyVal.int 3)]).1
    (by decide)
  have h2 := (order_type_defaulting (fun _ => "h") [] "Foo"
    [("order_type", PyVal.str "live")]).2 (PyVal.str "live") (by decide)
  exact ⟨h1.1, h1.2, h2.1, h2.2⟩

/-- Claim C4: the cache round trip of `fetch_api_data` is broken.  After a
cache-miss fetch of URL `"u"` with headers `{}`, the payload sits under the
key `"u#{}"`, while the next call with the same URL and headers consults the
key `"u"`: it misses and issues a second HTTP request, where the claim (and
the function's own docstring) promise a hit with no network I/O.  Here
`"\x7b\x7d"` is `str({})`. -/
theorem fetch_api_data_cache_roundtrip_broken :
    (fetch_api_data "\x7b\x7d" (fun _ => "payload") "u" ⟨[], 0⟩).2.cache
      = [("u#\x7b\x7d", "payload")] ∧
    get_cached_data
      (fetch_api_data "\x7b\x7d" (fun _ => "payload") "u" ⟨[], 0⟩).2.cache "u" = none ∧
    (fetch_api_data "\x7b\x7d" (fun _ => "payload") "u"
        (fetch_api_data "\x7b\x7d" (fun _ => "payload") "u" ⟨[], 0⟩).2).2.requests = 2 := by
  decide

/-- Claim C8, counterexample: the fallback identifier that `build_item_ids`
assigns to a name absent from the catalog is a fresh `uuid.uuid4()` draw, not
a function of the name — two runs over the same name and the same (empty)
catalog with different random draws produce different identifiers; moreover a
record of an unknown item that carries `subtype` is not given any fallback:
the stamping raises `KeyError`. -/
theorem build_item_ids_random_fallback_counterexample :
    (build_item_ids (fun _ => "aaaa") [] [] [[("foo", [[]])]]).map
        (fun r => alookup r.1 "foo") = some (some "aaaa") ∧
    (build_item_ids (fun _ => "bbbb") [] [] [[("foo", [[]])]]).map
        (fun r => alookup r.1 "foo") = some (some "bbbb") ∧
    ("aaaa" : String) ≠ "bbbb" ∧
    (build_item_ids (fun _ => "aaaa") [] []
      [[("bar", [[("subtype", PyVal.str "r0")]])]]).isNone = true := by
  decide

/-- Claim C8, amended: `get_item_id` (the fallback used by
`fix_names_and_add_ids`) is deterministic — a name absent from the catalog
maps to the MD5 hex digest of the name, a pure function of the name, and a
present name maps to its catalog identifier — and the stamping step always
writes a non-null `item_id` on every record it processes; `build_item_ids`,
in contrast, draws a fresh random uuid4-based identifier for unknown names
(stable only within one run, as the counterexample shows). -/
theorem get_item_id_deterministic_fallback (md5hex : String → String)
    (item_ids : List (String × String)) (name nm : String) (r : Rec) :
    (alookup item_ids name = none → get_item_id md5hex name item_ids = md5hex name) ∧
    (∀ v, alookup item_ids name = some v → get_item_id md5hex name item_ids = v) ∧
    alookup (fixDayCommon md5hex item_ids nm r) "item_id"
      = some (.str (get_item_id md5hex nm item_ids)) := by
  refine ⟨?_, ?_, ?_⟩
  · intro h; rw [get_item_id, h]
  · intro v h; rw [get_item_id, h]
  · rw [fixDayCommon]
    exact alookup_aset_self _ "item_id" _

/-- Witness for the amended C8 at concrete inputs. -/
theorem get_item_id_deterministic_fallback_witness :
    get_item_id (fun s => s ++ "-digest") "Foo" [("Bar", "id0")] = "Foo-digest" ∧
    get_item_id (fun s => s ++ "-digest") "Bar" [("Bar", "id0")] = "id0" ∧
    alookup (fixDayCommon (fun s => s ++ "-digest") [("Bar", "id0")] "Foo" []) "item_id"
      = some (.str "Foo-digest") := by
  have h := get_item_id_deterministic_fallback (fun s => s ++ "-digest")
    [("Bar", "id0")] "Foo" "Foo" []
  have h2 := get_item_id_deterministic_fallback (fun s => s ++ "-digest")
    [("Bar", "id0")] "Bar" "Foo" []
  refine ⟨h.1 (by decide), h2.2.1 "id0" (by decide), ?_⟩
  have h3 := h.2.2
  rw [h.1 (by decide)] at h3
  exact h3

/-- Claim C7, counterexample: of the cited fetch primitives, the legacy
`modules/MarketAPI.fetch_api_data` issues a sixth request when the first five
attempts fail (it retries without bound), and `fetch_wfm_data` gives up after
3 attempts and silently returns `None` instead of raising — both contradict
"at most 5 attempts, then raise an error rather than silently returning no
value". -/
theorem fetch_retry_ceiling_counterexample :
    fetch_api_data_legacy [] (fun i => if i < 5 then ⟨500, "err"⟩ else ⟨200, "ok"⟩) "u" 10
      = (some "ok", 6) ∧
    fetch_wfm_data [] (fun _ => ⟨500, "err"⟩) "u" = (none, 3) := by
  decide

theorem tenacityLoop_le (oracle : Nat → HttpResponse) (url : String) :
    ∀ n i, (tenacityLoop oracle url n i).2 ≤ i + n := by
  intro n
  induction n with
  | zero => intro i; simp [tenacityLoop]
  | succ n ih =>
    intro i
    rw [tenacityLoop]
    by_cases h : (oracle i).status < 400
    · rw [if_pos h]; omega
    · rw [if_neg h]
      have := ih (i + 1)
      omega

theorem tenacityLoop_allfail (oracle : Nat → HttpResponse) (url : String) :
    ∀ n i, (∀ j, i ≤ j → j < i + n → 400 ≤ (oracle j).status) →
      tenacityLoop oracle url n i = (.error ⟨url, (oracle (i + n - 1)).status⟩, i + n) := by
  intro n
  induction n with
  | zero => intro i _; simp [tenacityLoop]
  | succ n ih =>
    intro i h
    rw [tenacityLoop, if_neg (by have := h i le_rfl (by omega); omega)]
    rw [ih (i + 1) (fun j h1 h2 => h j (by omega) (by omega))]
    have he : i + 1 + n = i + (n + 1) := by omega
    rw [he]

theorem wfmLoop_allfail (oracle : Nat → HttpResponse) :
    ∀ n i, (∀ j, i ≤ j → j < i + n → (oracle j).status ≠ 200) →
      wfmLoop oracle n i = (none, i + n) := by
  intro n
  induction n with
  | zero => intro i _; simp [wfmLoop]
  | succ n ih =>
    intro i h
    rw [wfmLoop, if_neg (h i le_rfl (by omega))]
    rw [ih (i + 1) (fun j h1 h2 => h j (by omega) (by omega))]
    have he : i + 1 + n = i + (n + 1) := by omega
    rw [he]

/-- Claim C7, amended: the three fetch variants have three different retry
policies.  `common.fetch_api_data`'s `make_request` issues at most 5 requests
and, when all 5 attempts fail, raises an error carrying the URL and the last
status; `fetch_wfm_data` issues at most 3 requests and silently returns
`None` on exhaustion; the legacy `modules/MarketAPI.fetch_api_data` retries
without bound (the counterexample exhibits a sixth request). -/
theorem fetch_retry_policies (oracle : Nat → HttpResponse) (url : String)
    (cache : List (String × String)) :
    (make_request oracle url).2 ≤ 5 ∧
    ((∀ i, i < 5 → 400 ≤ (oracle i).status) →
        make_request oracle url = (.error ⟨url, (oracle 4).status⟩, 5)) ∧
    (alookup cache url = none → (∀ i, i < 3 → (oracle i).status ≠ 200) →
        fetch_wfm_data cache oracle url = (none, 3)) := by
  refine ⟨tenacityLoop_le oracle url 5 0, ?_, ?_⟩
  · intro h
    exact tenacityLoop_allfail oracle url 5 0 (fun j _ h2 => h j (by omega))
  · intro hc h
    rw [fetch_wfm_data, hc]
    exact wfmLoop_allfail oracle 3 0 (fun j _ h2 => h j (by omega))

/-- Witness for the amended C7: a server that always answers 500. -/
theorem fetch_retry_policies_witness :
    make_request (fun _ => ⟨500, "err"⟩) "u" = (.error ⟨"u", 500⟩, 5) ∧
    fetch_wfm_data [] (fun _ => ⟨500, "err"⟩) "u" = (none, 3) := by
  refine ⟨?_, ?_⟩
  · exact (fetch_retry_policies (fun _ => ⟨500, "err"⟩) "u" []).2.1
      (fun i _ => by decide)
  · exact (fetch_retry_policies (fun _ => ⟨500, "err"⟩) "u" []).2.2 rfl
      (fun i _ => by decide)

/-- Claim C9, counterexample: on the query consisting of the single word
`'blueprint'`, the `market_engine` `remove_blueprint` evaluates `words[-2]`
on a one-element list and raises `IndexError` — it is not defined on every
query string.  (The legacy variant in `src/modules` is total — it strips and
returns the empty string — but its exception set is only `'prime'`: it
strips after `'wraith'`, unlike the cited variant.) -/
theorem remove_blueprint_crash_counterexample :
    remove_blueprint "blueprint" = none ∧
    remove_blueprint_legacy "blueprint" = "" ∧
    remove_blueprint_legacy "wraith blueprint" = "wraith" ∧
    remove_blueprint "wraith blueprint" = some "wraith blueprint" := by
  decide

/-- Claim C9, amended: `remove_blueprint` is defined for every query string
except one shape — a query tokenizing to the single word `'blueprint'`, on
which it raises `IndexError`.  On every other query it removes a trailing
`'blueprint'` token exactly when the word preceding it is not in the
exception set `{'prime', 'wraith', 'vandal'}`, and otherwise returns the
lowercased query unchanged. -/
theorem remove_blueprint_spec (s : String) :
    ((pyWords (pyLower s)).getLast? ≠ some "blueprint" →
        remove_blueprint s = some (pyLower s)) ∧
    (∀ ws w, pyWords (pyLower s) = ws ++ [w, "blueprint"] →
        (w ∈ (["prime", "wraith", "vandal"] : List String) →
            remove_blueprint s = some (pyLower s)) ∧
        (w ∉ (["prime", "wraith", "vandal"] : List String) →
            remove_blueprint s = some (pyJoin " " (ws ++ [w])))) ∧
    (pyWords (pyLower s) = ["blueprint"] → remove_blueprint s = none) := by
  refine ⟨?_, ?_, ?_⟩
  · intro h
    rw [remove_blueprint]
    simp only [if_neg h]
  · intro ws w hws
    have hlast : (pyWords (pyLower s)).getLast? = some "blueprint" := by
      rw [hws, show ws ++ [w, "blueprint"] = (ws ++ [w]) ++ ["blueprint"] by simp,
        List.getLast?_concat]
    have hlen : (pyWords (pyLower s)).length = ws.length + 2 := by
      rw [hws]; simp
    have hgetd : (pyWords (pyLower s)).getD ((pyWords (pyLower s)).length - 2) "" = w := by
      rw [hws]
      have h2 : (ws ++ [w, "blueprint"]).length - 2 = ws.length := by simp
      rw [h2, List.getD_eq_getElem?_getD, List.getElem?_append_right le_rfl]
      simp
    have hdrop : (pyWords (pyLower s)).dropLast = ws ++ [w] := by
      rw [hws, show ws ++ [w, "blueprint"] = (ws ++ [w]) ++ ["blueprint"] by simp,
        List.dropLast_concat]
    constructor
    · intro hmem
      simp only [remove_blueprint]
      rw [if_pos hlast, if_neg (by rw [hlen]; omega), if_pos (by rw [hgetd]; exact hmem)]
    · intro hmem
      simp only [remove_blueprint]
      rw [if_pos hlast, if_neg (by rw [hlen]; omega), if_neg (by rw [hgetd]; exact hmem),
        hdrop]
  · intro h
    simp only [remove_blueprint, h]
    rw [if_pos (by decide), if_pos (by decide)]

/-- Witness for the amended C9 at concrete queries from each case: no
trailing blueprint, exception-set predecessor, strip, and the crashing
single-word query. -/
theorem remove_blueprint_spec_witness :
    remove_blueprint "Volt Neuroptics" = some "volt neuroptics" ∧
    remove_blueprint "Boltor Prime Blueprint" = some "boltor prime blueprint" ∧
    remove_blueprint "Boltor Blueprint" = some "boltor" ∧
    remove_blueprint "Blueprint" = none := by
  refine ⟨?_, ?_, ?_, ?_⟩
  · exact (remove_blueprint_spec "Volt Neuroptics").1 (by decide)
  · exact ((remove_blueprint_spec "Boltor Prime Blueprint").2.1 ["boltor"] "prime"
      (by decide)).1 (by decide)
  · exact ((remove_blueprint_spec "Boltor Blueprint").2.1 [] "boltor"
      (by decide)).2 (by decide)
  · exact (remove_blueprint_spec "Blueprint").2.2 (by decide)

theorem foldl_max_le (ratio : String → String → Nat) (q : String)
    (hr : ∀ a b, ratio a b ≤ 100) :
    ∀ (ns : List String) (acc : Nat), acc ≤ 100 →
      ns.foldl (fun m n => max m (ratio q n)) acc ≤ 100 := by
  intro ns
  induction ns with
  | nil => intro acc h; simpa using h
  | cons n rest ih =>
    intro acc h
    rw [List.foldl_cons]
    exact ih _ (by have := hr q n; omega)

theorem itemScore_le_100 (ratio : String → String → Nat) (q : String) (it : Item)
    (sc : Nat) (hr : ∀ a b, ratio a b ≤ 100)
    (h : itemScore ratio q it = some sc) : sc ≤ 100 := by
  rw [itemScore] at h
  cases hm : (get_item_names it).mapM (fun n => remove_common_words ratio n commonWords) with
  | none => rw [hm] at h; cases h
  | some ns =>
    rw [hm] at h
    injection h with h
    rw [← h]
    exact foldl_max_le ratio q hr ns 0 (by omega)

/-- Invariant of the candidate loop of `find_best_match`: the running best
only grows, a returned best item realises the returned best score, the
returned item is the seed or comes from the candidate list, and every
candidate whose score is defined scores at most the returned best. -/
theorem fbmLoop_spec (ratio : String → String → Nat) (q : String)
    (hr : ∀ a b, ratio a b ≤ 100) :
    ∀ (l : List Item) (best : Nat) (bi : Option Item) (s : Nat) (b : Option Item),
      fbmLoop ratio q l best bi = some (s, b) →
      best ≤ 100 →
      (bi = none → best = 0) →
      (∀ it, bi = some it → itemScore ratio q it = some best) →
      best ≤ s ∧ s ≤ 100 ∧
      (b = none → s = 0) ∧
      (∀ it, b = some it → itemScore ratio q it = some s) ∧
      (∀ it, b = some it → bi = some it ∨ it ∈ l) ∧
      (∀ it ∈ l, ∀ sc, itemScore ratio q it = some sc → sc ≤ s) := by
  intro l
  induction l with
  | nil =>
    intro best bi s b h hb100 hbn hbs
    rw [fbmLoop] at h
    injection h with h
    injection h with h1 h2
    subst h1; subst h2
    exact ⟨le_rfl, hb100, hbn, hbs, fun it hit => Or.inl hit, by simp⟩
  | cons it rest ih =>
    intro best bi s b h hb100 hbn hbs
    rw [fbmLoop] at h
    cases hsc : itemScore ratio q it with
    | none => rw [hsc] at h; cases h
    | some sc =>
      rw [hsc] at h
      dsimp only at h
      have hsc100 : sc ≤ 100 := itemScore_le_100 ratio q it sc hr hsc
      by_cases hlt : best < sc
      · simp only [if_pos hlt] at h
        by_cases h100 : sc = 100
        · rw [if_pos h100] at h
          injection h with h
          injection h with h1 h2
          subst h1; subst h2
          refine ⟨by omega, hsc100, by simp, ?_, ?_, ?_⟩
          · intro it' hit'
            injection hit' with hit'
            subst hit'
            exact hsc
          · intro it' hit'
            injection hit' with hit'
            subst hit'
            exact Or.inr (by simp)
          · intro it' hmem sc' hsc'
            have := itemScore_le_100 ratio q it' sc' hr hsc'
            omega
        · rw [if_neg h100] at h
          obtain ⟨h1, h2, h3, h4, h5, h6⟩ := ih sc (some it) s b h hsc100
            (by intro hc; cases hc)
            (by intro it' hit'; injection hit' with hit'; subst hit'; exact hsc)
          refine ⟨by omega, h2, h3, h4, ?_, ?_⟩
          · intro it' hit'
            rcases h5 it' hit' with hl | hr'
            · injection hl with hl
              subst hl
              exact Or.inr (by simp)
            · exact Or.inr (by simp [hr'])
          · intro it' hmem sc' hsc'
            simp only [List.mem_cons] at hmem
            rcases hmem with rfl | hmem
            · rw [hsc] at hsc'
              injection hsc' with hsc'
              omega
            · exact h6 it' hmem sc' hsc'
      · simp only [if_neg hlt] at h
        by_cases h100 : best = 100
        · rw [if_pos h100] at h
          injection h with h
          injection h with h1 h2
          subst h1; subst h2
          refine ⟨le_rfl, hb100, hbn, hbs, fun it' hit' => Or.inl hit', ?_⟩
          intro it' hmem sc' hsc'
          have : sc' ≤ 100 := itemScore_le_100 ratio q it' sc' hr hsc'
          omega
        · rw [if_neg h100] at h
          obtain ⟨h1, h2, h3, h4, h5, h6⟩ := ih best bi s b h hb100 hbn hbs
          refine ⟨h1, h2, h3, h4, ?_, ?_⟩
          · intro it' hit'
            rcases h5 it' hit' with hl | hr'
            · exact Or.inl hl
            · exact Or.inr (by simp [hr'])
          · intro it' hmem sc' hsc'
            simp only [List.mem_cons] at hmem
            rcases hmem with rfl | hmem
            · rw [hsc] at hsc'
              injection hsc' with hsc'
              omega
            · exact h6 it' hmem sc' hsc'

/-- Claim C6 — fuzzy resolution threshold: whenever `find_best_match`
returns without an exception, `_get_fuzzy_item` returns the best-scoring
candidate only when its score exceeds 50; a best score of 50 or below yields
"not found" (`some none`) rather than any item or an exception; and the
returned score dominates every candidate's defined score against the cleaned
query. -/
theorem get_fuzzy_item_threshold (ratio : String → String → Nat)
    (hr : ∀ a b, ratio a b ≤ 100) (item_name : String) (items : List Item)
    (s : Nat) (b : Option Item)
    (hfb : find_best_match ratio item_name items = some (s, b))
    (q : String) (hq : cleanedQuery ratio item_name = some q) :
    (s ≤ 50 → get_fuzzy_item ratio item_name items = some none) ∧
    (50 < s → ∃ it, b = some it ∧ it ∈ items ∧
        get_fuzzy_item ratio item_name items = some (some it) ∧
        itemScore ratio q it = some s) ∧
    (∀ it ∈ items, ∀ sc, itemScore ratio q it = some sc → sc ≤ s) := by
  have hloop : fbmLoop ratio q items 0 none = some (s, b) := by
    rw [find_best_match, hq] at hfb
    exact hfb
  obtain ⟨h1, h2, h3, h4, h5, h6⟩ := fbmLoop_spec ratio q hr items 0 none s b hloop
    (by omega) (fun _ => rfl) (by intro it hit; cases hit)
  refine ⟨?_, ?_, h6⟩
  · intro hle
    rw [get_fuzzy_item, hfb]
    dsimp only
    rw [if_neg (by omega)]
  · intro hgt
    cases hb : b with
    | none => rw [h3 hb] at hgt; omega
    | some it =>
      refine ⟨it, rfl, ?_, ?_, h4 it hb⟩
      · rcases h5 it hb with hl | hmem
        · cases hl
        · exact hmem
      · rw [get_fuzzy_item, hfb]
        dsimp only
        rw [if_pos hgt, hb]

/-- Witness for C6: under an equality similarity, the query `"zzz"` scores 0
against the only candidate and resolves to "not found", while the query
`"aaa"` scores 100 and resolves to the candidate. -/
theorem get_fuzzy_item_threshold_witness :
    get_fuzzy_item ratioEq "zzz" [⟨"aaa", []⟩] = some none ∧
    get_fuzzy_item ratioEq "aaa" [⟨"aaa", []⟩] = some (some ⟨"aaa", []⟩) := by
  have hr : ∀ a b, ratioEq a b ≤ 100 := by
    intro a b
    rw [ratioEq]
    split <;> omega
  constructor
  · exact (get_fuzzy_item_threshold ratioEq hr "zzz" [⟨"aaa", []⟩] 0 none (by decide)
      "zzz" (by decide)).1 (by omega)
  · obtain ⟨it, hb, -, hres, -⟩ := (get_fuzzy_item_threshold ratioEq hr "aaa"
      [⟨"aaa", []⟩] 100 (some ⟨"aaa", []⟩) (by decide) "aaa" (by decide)).2.1 (by omega)
    obtain rfl : (⟨"aaa", []⟩ : Item) = it := by injection hb
    exact hres

theorem char_toNat_inj {a b : Char} (h : a.toNat = b.toNat) : a = b :=
  Char.ext (UInt32.toNat.inj h)

theorem charListLe_total : ∀ l1 l2 : List Char,
    charListLe l1 l2 = true ∨ charListLe l2 l1 = true := by
  intro l1
  induction l1 with
  | nil => intro l2; left; simp [charListLe]
  | cons a as ih =>
    intro l2
    cases l2 with
    | nil => right; simp [charListLe]
    | cons b bs =>
      by_cases hab : a = b
      · subst hab
        rcases ih bs with h | h
        · left; simp [charListLe, h]
        · right; simp [charListLe, h]
      · have hne : a.toNat ≠ b.toNat := fun hc => hab (char_toNat_inj hc)
        by_cases hlt : a.toNat < b.toNat
        · left; simp [charListLe, hab, hlt]
        · right
          simp only [charListLe]
          rw [if_neg (Ne.symm hab)]
          simp only [decide_eq_true_eq]
          omega

theorem charListLe_trans : ∀ l1 l2 l3 : List Char,
    charListLe l1 l2 = true → charListLe l2 l3 = true → charListLe l1 l3 = true := by
  intro l1
  induction l1 with
  | nil => intro l2 l3 _ _; simp [charListLe]
  | cons a as ih =>
    intro l2 l3 h12 h23
    cases l2 with
    | nil => simp [charListLe] at h12
    | cons b bs =>
      cases l3 with
      | nil => simp [charListLe] at h23
      | cons c cs =>
        simp only [charListLe] at h12 h23 ⊢
        by_cases hab : a = b
        · subst hab
          rw [if_pos rfl] at h12
          by_cases hbc : a = c
          · subst hbc
            rw [if_pos rfl] at h23 ⊢
            exact ih bs cs h12 h23
          · rw [if_neg hbc] at h23 ⊢
            exact h23
        · rw [if_neg hab] at h12
          simp only [decide_eq_true_eq] at h12
          by_cases hbc : b = c
          · subst hbc
            rw [if_neg hab]
            simp only [decide_eq_true_eq]
            exact h12
          · rw [if_neg hbc] at h23
            simp only [decide_eq_true_eq] at h23
            have hac : a ≠ c := by
              intro hc
              subst hc
              omega
            rw [if_neg hac]
            simp only [decide_eq_true_eq]
            omega

theorem keyLe_total (a b : ParsedOrder) : keyLe a b ∨ keyLe b a := by
  rw [keyLe, keyLe]
  rcases Nat.lt_trichotomy a.price b.price with h | h | h
  · exact Or.inl (Or.inl h)
  · rcases charListLe_total a.last_update.data b.last_update.data with hc | hc
    · exact Or.inl (Or.inr ⟨h, hc⟩)
    · exact Or.inr (Or.inr ⟨h.symm, hc⟩)
  · exact Or.inr (Or.inl h)

theorem keyLe_trans (a b c : ParsedOrder) (hab : keyLe a b) (hbc : keyLe b c) :
    keyLe a c := by
  rw [keyLe] at hab hbc ⊢
  rcases hab with h1 | ⟨h1, h1'⟩ <;> rcases hbc with h2 | ⟨h2, h2'⟩
  · exact Or.inl (by omega)
  · exact Or.inl (by omega)
  · exact Or.inl (by omega)
  · exact Or.inr ⟨by omega, charListLe_trans _ _ _ h1' h2'⟩

theorem filterAll_sublist (filters : List (String × FilterVal))
    (mode : List (String × String)) :
    ∀ (l l' : List ParsedOrder), filterAll filters mode l = some l' → l'.Sublist l := by
  intro l
  induction l with
  | nil =>
    intro l' h
    rw [filterAll] at h
    injection h with h
    rw [← h]
  | cons o rest ih =>
    intro l' h
    rw [filterAll] at h
    cases hp : passes filters mode o with
    | none => rw [hp] at h; cases h
    | some bv =>
      rw [hp] at h
      cases bv with
      | true =>
        dsimp only at h
        cases hf : filterAll filters mode rest with
        | none => rw [hf] at h; cases h
        | some l'' =>
          rw [hf] at h
          injection h with h
          rw [← h]
          exact List.Sublist.cons₂ o (ih l'' hf)
      | false =>
        dsimp only at h
        exact List.Sublist.cons o (ih l' h)

/-- Claim C10 — order-book sort invariant: whenever `parse_orders` returns,
the sell side is sorted non-decreasingly and the buy side non-increasingly by
the key `(price, last_update)`, and consequently every successful
`filter_orders` call returns its orders in that same key order (cheapest
matching sell orders first, highest-paying buy orders first). -/
theorem parse_orders_sorted (orders : List RawOrder) (book : OrderBook)
    (users : List (String × String))
    (h : parse_orders orders = some (book, users)) :
    List.Sorted keyLe book.sell ∧ List.Sorted keyGe book.buy ∧
    (∀ n filters mode l, filter_orders book "sell" n filters mode = some l →
        List.Sorted keyLe l) ∧
    (∀ n filters mode l, filter_orders book "buy" n filters mode = some l →
        List.Sorted keyGe l) := by
  haveI : IsTotal ParsedOrder keyLe := ⟨keyLe_total⟩
  haveI : IsTrans ParsedOrder keyLe := ⟨keyLe_trans⟩
  haveI : IsTotal ParsedOrder keyGe := ⟨fun a b => by
    rw [keyGe, keyGe]; exact keyLe_total b a⟩
  haveI : IsTrans ParsedOrder keyGe := ⟨fun a b c hab hbc => by
    rw [keyGe] at hab hbc ⊢; exact keyLe_trans c b a hbc hab⟩
  rw [parse_orders] at h
  cases hr : routeOrders orders [] [] [] with
  | none => rw [hr] at h; cases h
  | some t =>
    obtain ⟨buys, sells, us⟩ := t
    rw [hr] at h
    dsimp only at h
    injection h with h1
    rw [Prod.mk.injEq] at h1
    obtain ⟨h1, h2⟩ := h1
    subst h2
    rw [← h1]
    dsimp only
    have hsell : List.Sorted keyLe (List.insertionSort keyLe sells) :=
      List.sorted_insertionSort keyLe sells
    have hbuy : List.Sorted keyGe (List.insertionSort keyGe buys) :=
      List.sorted_insertionSort keyGe buys
    refine ⟨hsell, hbuy, ?_, ?_⟩
    · intro n filters mode l hl
      rw [filter_orders] at hl
      rw [if_pos rfl] at hl
      dsimp only at hl
      cases hf : filterAll filters mode (List.insertionSort keyLe sells) with
      | none => rw [hf] at hl; cases hl
      | some l'' =>
        rw [hf] at hl
        injection hl with hl
        rw [← hl]
        exact List.Pairwise.sublist
          ((List.take_sublist n l'').trans (filterAll_sublist filters mode _ l'' hf)) hsell
    · intro n filters mode l hl
      rw [filter_orders] at hl
      rw [if_neg (by decide), if_pos rfl] at hl
      dsimp only at hl
      cases hf : filterAll filters mode (List.insertionSort keyGe buys) with
      | none => rw [hf] at hl; cases hl
      | some l'' =>
        rw [hf] at hl
        injection hl with hl
        rw [← hl]
        exact List.Pairwise.sublist
          ((List.take_sublist n l'').trans (filterAll_sublist filters mode _ l'' hf)) hbuy

/-- Witness for C10: three concrete orders — the sell side comes back sorted
by ascending price and the buy side is the reversed-order singleton. -/
theorem parse_orders_sorted_witness :
    List.Sorted keyLe
      [⟨"2023-01", 2, 3, "bob", "offline", some "radiant"⟩,
       ⟨"2023-02", 1, 5, "alice", "ingame", none⟩] ∧
    List.Sorted keyGe [⟨"2023-03", 1, 7, "carol", "ingame", some "R2"⟩] := by
  have h := parse_orders_sorted
    [⟨"sell", "2023-02", 1, 5, "u1", "alice", "ingame", none, none⟩,
     ⟨"sell", "2023-01", 2, 3, "u2", "bob", "offline", some "radiant", none⟩,
     ⟨"buy", "2023-03", 1, 7, "u3", "carol", "ingame", none, some 2⟩]
    ⟨[⟨"2023-03", 1, 7, "carol", "ingame", some "R2"⟩],
     [⟨"2023-01", 2, 3, "bob", "offline", some "radiant"⟩,
      ⟨"2023-02", 1, 5, "alice", "ingame", none⟩]⟩
    [("u1", "alice"), ("u2", "bob"), ("u3", "carol")]
    (by decide)
  exact ⟨h.1, h.2.1⟩

end MarketEngine
